import Mathlib

set_option maxHeartbeats 1000000

/-!
Shallow embedding of the hive game player (src/player.py) and proofs about it.
Cells are hex coordinates, a board maps a cell to a stack of piece characters
(top of the stack is the last element, as in the Python lists), and the hive is
the set of occupied cells, maintained incrementally next to the board.
-/

/-- A board cell, the pair (p, q) of hex coordinates. -/
abbrev Cell : Type := Int × Int

/-- Componentwise addition of cells and direction vectors. -/
def cadd (a b : Cell) : Cell := (a.1 + b.1, a.2 + b.2)

/-- Componentwise subtraction of cells. -/
def csub (a b : Cell) : Cell := (a.1 - b.1, a.2 - b.2)

/-- The six hex neighbor offsets, in the order of the source `DIRECTIONS` list. -/
def DIRECTIONS : List Cell := [(1, 0), (0, 1), (-1, 1), (-1, 0), (0, -1), (1, -1)]

/-- The direction at index i of `DIRECTIONS`. -/
def dirAt (i : Fin 6) : Cell := DIRECTIONS.getD i.1 (0, 0)

/-- Two cells are adjacent when their difference is one of the six directions. -/
def adjacent (a b : Cell) : Prop := csub b a ∈ DIRECTIONS

instance (a b : Cell) : Decidable (adjacent a b) := by
  unfold adjacent; infer_instance

/-- The five piece kinds (`Piece` in the source). -/
inductive Piece where
  | Queen | Spider | Beetle | Ant | Grasshopper
deriving DecidableEq

/-- The uppercase letter of a piece kind (the enum value in the source). -/
def Piece.char : Piece → Char
  | .Queen => 'Q'
  | .Spider => 'S'
  | .Beetle => 'B'
  | .Ant => 'A'
  | .Grasshopper => 'G'

/-- `Piece.from_str`: parse a piece letter of either case; the source raises
on any other character, modelled by `none`. -/
def pieceFromChar (c : Char) : Option Piece :=
  if c = 'Q' ∨ c = 'q' then some .Queen
  else if c = 'S' ∨ c = 's' then some .Spider
  else if c = 'B' ∨ c = 'b' then some .Beetle
  else if c = 'A' ∨ c = 'a' then some .Ant
  else if c = 'G' ∨ c = 'g' then some .Grasshopper
  else none

/-- A move: a piece kind, an optional start cell (`none` places a piece from
reserve) and an end cell. -/
structure Move where
  piece : Piece
  start : Option Cell
  end_ : Cell
deriving DecidableEq

/-- `Move.piece_str`: the letter of the moved piece, uppercase for the upper player. -/
def pieceStrOf (m : Move) (upper : Bool) : Char :=
  if upper then m.piece.char else m.piece.char.toLower

/-- Game outcome state. -/
inductive State where
  | RUNNING | WIN | LOSS | DRAW
deriving DecidableEq

/-- Numeric value of a state, as in the source IntEnum. -/
def State.val : State → Nat
  | .RUNNING => 0
  | .WIN => 1
  | .LOSS => 2
  | .DRAW => 3

/-- `State.is_end`: a state is final when its numeric value is positive. -/
def State.isEnd (s : State) : Bool := decide (0 < s.val)

/-- `State.inverse`: swap WIN and LOSS, keep everything else. -/
def State.inverse : State → State
  | .WIN => .LOSS
  | .LOSS => .WIN
  | s => s

/-- The player state: the stack board, the board size, the incrementally
maintained hive set of occupied cells, the player color, the reserve piece
counts and the turn index (`myMove`). -/
@[ext]
structure PlayerSt where
  board : Cell → List Char
  size : Int
  hive : Finset Cell
  upper : Bool
  myPieces : List (Piece × Nat)
  myMove : Nat

/-- `Player.in_board`: 0 <= q < size and -(q // 2) <= p < size - q // 2,
with Python floor division. -/
def inBoard (s : PlayerSt) (cell : Cell) : Bool :=
  decide (0 ≤ cell.2 ∧ cell.2 < s.size ∧
    -(cell.2.fdiv 2) ≤ cell.1 ∧ cell.1 < s.size - cell.2.fdiv 2)

/-- `Player.is_empty`: a cell is empty when its stack is empty. -/
def isEmptyCell (s : PlayerSt) (cell : Cell) : Bool := (s.board cell).isEmpty

/-- `Player.top_piece_in`: the top piece of the stack at a cell, `none` when
the stack is empty (where the source would raise an IndexError). -/
def topPieceIn (s : PlayerSt) (cell : Cell) : Option Char := (s.board cell).getLast?

/-- Top piece with a placeholder default, used where the source only reads
occupied cells so the default is never produced. -/
def topPieceD (s : PlayerSt) (cell : Cell) : Char := (s.board cell).getLastD '.'

/-- `Player.remove_piece_from_board`: pop the top piece of the stack at a
cell, dropping the cell from the hive when the stack becomes empty.  Returns
the new state and the popped piece (`none` models the source IndexError on an
empty stack). -/
def removePieceFromBoard (s : PlayerSt) (cell : Cell) : PlayerSt × Option Char :=
  let stack := s.board cell
  ({ s with
      board := fun c => if c = cell then stack.dropLast else s.board c,
      hive := if stack.dropLast = [] then s.hive.erase cell else s.hive },
   stack.getLast?)

/-- `Player.add_piece_to_board`: push a piece onto the stack at a cell and add
the cell to the hive. -/
def addPieceToBoard (s : PlayerSt) (cell : Cell) (piece : Char) : PlayerSt :=
  { s with
      board := fun c => if c = cell then s.board cell ++ [piece] else s.board c,
      hive := insert cell s.hive }

/-- `Player.play_move`: for a relocation pop the piece at the start cell,
then push the piece at the end cell. -/
def playMove (s : PlayerSt) (m : Move) : PlayerSt :=
  let piece := pieceStrOf m s.upper
  match m.start with
  | some st => addPieceToBoard (removePieceFromBoard s st).1 m.end_ piece
  | none => addPieceToBoard s m.end_ piece

/-- `Player.reverse_move`: for a relocation push the piece back at the start
cell, then pop it off the end cell. -/
def reverseMove (s : PlayerSt) (m : Move) : PlayerSt :=
  let piece := pieceStrOf m s.upper
  let s1 := match m.start with
    | some st => addPieceToBoard s st piece
    | none => s
  (removePieceFromBoard s1 m.end_).1

/-- `Player.neighboring_cells_unchecked`: the six neighbor cells, not checked
against the board bounds. -/
def neighboringCellsUnchecked (cell : Cell) : List Cell :=
  DIRECTIONS.map (fun d => cadd cell d)

/-- `Player.neighboring_cells`: the six neighbor cells restricted to the board. -/
def neighboringCells (s : PlayerSt) (cell : Cell) : List Cell :=
  (neighboringCellsUnchecked cell).filter (fun c => inBoard s c)

/-- `Player.empty_neighboring_cells`: in-board neighbors with an empty stack. -/
def emptyNeighboringCells (s : PlayerSt) (cell : Cell) : List Cell :=
  (neighboringCells s cell).filter (fun c => isEmptyCell s c)

/-- `Player.neighbors`: in-board neighbors with a non-empty stack. -/
def neighborsOcc (s : PlayerSt) (cell : Cell) : List Cell :=
  (neighboringCells s cell).filter (fun c => !isEmptyCell s c)

/-- `Player.rotate_left`: rotate a direction one hex step to the left. -/
def rotateLeft (d : Cell) : Cell := (d.1 + d.2, -d.1)

/-- `Player.rotate_right`: rotate a direction one hex step to the right. -/
def rotateRight (d : Cell) : Cell := (-d.2, d.1 + d.2)

/-- `Player.can_move_to`: the freedom-to-move test from origin to target,
optionally with the beetle crawl-over variant. -/
def canMoveTo (s : PlayerSt) (origin target : Cell) (canCrawlOver : Bool) : Bool :=
  if !isEmptyCell s target && !canCrawlOver then false
  else
    let d := csub target origin
    let left := cadd origin (rotateLeft d)
    let right := cadd origin (rotateRight d)
    if canCrawlOver then
      (inBoard s left && !isEmptyCell s left) || (inBoard s right && !isEmptyCell s right)
    else
      (inBoard s left && inBoard s right) && (isEmptyCell s left != isEmptyCell s right)

/-- `Player.valid_steps`: the in-board neighbors reachable by one
freedom-to-move step. -/
def validSteps (s : PlayerSt) (cell : Cell) (canCrawlOver : Bool) : List Cell :=
  (neighboringCells s cell).filter (fun n => canMoveTo s cell n canCrawlOver)

/-- Occupancy of the six unchecked neighbor slots of a cell with respect to a
hive set, indexed in `DIRECTIONS` order (the loop in `moving_breaks_hive`
tests membership of the raw neighbors in `self.hive`). -/
def occAround (S : Finset Cell) (c : Cell) (i : Fin 6) : Bool :=
  decide (cadd c (dirAt i) ∈ S)

/-- One step of the run-counting loop in `moving_breaks_hive`: on an occupied
slot enter a run, on an empty slot close a run if one was open. -/
def groupsStep (occ : Fin 6 → Bool) (acc : Nat × Bool) (i : Fin 6) : Nat × Bool :=
  if occ i then (acc.1, true)
  else if acc.2 then (acc.1 + 1, false)
  else acc

/-- The run-counting loop of `moving_breaks_hive`: scan slots 1..5 starting
from the occupancy of slot 0, then close the wrap-around run when the scan
ends inside a run and slot 0 is empty. -/
def groupsOf (occ : Fin 6 → Bool) : Nat :=
  let first := occ 0
  let acc := [(1 : Fin 6), 2, 3, 4, 5].foldl (groupsStep occ) (0, first)
  if acc.2 && !first then acc.1 + 1 else acc.1

/-- The number of contiguous occupied neighbor runs around a cell, as counted
by `moving_breaks_hive`. -/
def groupsAround (S : Finset Cell) (c : Cell) : Nat :=
  groupsOf (occAround S c)

/-- Reachability inside a set of cells: a reflexive-transitive chain of
adjacency steps whose targets all lie in the set. -/
def reachIn (S : Finset Cell) (a b : Cell) : Prop :=
  Relation.ReflTransGen (fun x y => y ∈ S ∧ adjacent x y) a b

/-- A hive set is connected when every member reaches every member inside it. -/
def hiveConnected (S : Finset Cell) : Prop :=
  ∀ a ∈ S, ∀ b ∈ S, reachIn S a b

/-- Two neighbor slot indices are consecutive around the hex (with wrap). -/
def idxNear (i j : Fin 6) : Bool := (j == i + 1) || (i == j + 1)

/-- Expand a set of slot indices by the occupied slots adjacent to it. -/
def idxReachExpand (occ : Fin 6 → Bool) (s : Finset (Fin 6)) : Finset (Fin 6) :=
  s ∪ Finset.univ.filter (fun j => occ j = true ∧ ∃ i ∈ s, idxNear i j = true)

/-- Slot indices reachable from slot i through chains of consecutive occupied
slots (six expansions saturate on six slots). -/
def idxReach (occ : Fin 6 → Bool) (i : Fin 6) : Finset (Fin 6) :=
  (idxReachExpand occ)^[6] {i}

/-- The generic breadth-first `floodfill`, specialised to collecting the
visited set; the queue is a FIFO list and the fuel bounds the loop, which the
source bounds by the finiteness of the board. -/
def floodfillVisited (next : Cell → List Cell) :
    Nat → Finset Cell → List Cell → Finset Cell
  | 0, visited, _ => visited
  | _ + 1, visited, [] => visited
  | fuel + 1, visited, c :: queue =>
    if c ∈ visited then floodfillVisited next fuel visited queue
    else floodfillVisited next fuel (insert c visited) (queue ++ next c)

/-- The generic breadth-first `floodfill`, yielding the newly visited cells in
visit order (used by the ant move generator). -/
def floodfillOrder (next : Cell → List Cell) :
    Nat → Finset Cell → List Cell → List Cell
  | 0, _, _ => []
  | _ + 1, _, [] => []
  | fuel + 1, visited, c :: queue =>
    if c ∈ visited then floodfillOrder next fuel visited queue
    else c :: floodfillOrder next fuel (insert c visited) (queue ++ next c)

/-- Fuel that lets a floodfill over hive cells drain its queue: every visited
cell enqueues at most six successors. -/
def hiveFuel (s : PlayerSt) : Nat := 6 * s.hive.card + 6

/-- `Player.moving_breaks_hive`: vacating a stacked cell never breaks the
hive; otherwise count the occupied neighbor runs, and when the count is not
one, lift the piece and flood fill the hive from one occupied neighbor (the
source raises StopIteration when there is no occupied neighbor at all, here
modelled as `true` since a piece with no neighbors is its own component). -/
def movingBreaksHive (s : PlayerSt) (cell : Cell) : Bool :=
  if (s.board cell).length > 1 then false
  else if groupsAround s.hive cell = 1 then false
  else
    match neighborsOcc s cell with
    | [] => true
    | start :: _ =>
      let s1 := (removePieceFromBoard s cell).1
      let visited := floodfillVisited (fun c => neighborsOcc s1 c) (hiveFuel s1) ∅ [start]
      decide (visited ≠ s1.hive)

/-- `Player.queens_moves`: one freedom-to-move step in any direction, with the
queen lifted off the board while the steps are computed. -/
def queensMoves (s : PlayerSt) (queen : Cell) : List Move :=
  let s1 := (removePieceFromBoard s queen).1
  (validSteps s1 queen false).map (fun c => Move.mk .Queen (some queen) c)

/-- `Player.beetles_moves`: one crawl-over step in any direction, with the
beetle lifted off the board. -/
def beetlesMoves (s : PlayerSt) (beetle : Cell) : List Move :=
  let s1 := (removePieceFromBoard s beetle).1
  (validSteps s1 beetle true).map (fun c => Move.mk .Beetle (some beetle) c)

/-- `Player.ants_moves`: the breadth-first closure of single freedom-to-move
steps over empty cells, with the ant lifted off the board. -/
def antsMoves (s : PlayerSt) (ant : Cell) : List Move :=
  let s1 := (removePieceFromBoard s ant).1
  let nextCells := fun c =>
    (emptyNeighboringCells s1 c).filter (fun n => canMoveTo s1 c n false)
  let fuel := 6 * (s1.size.natAbs * s1.size.natAbs) + 12
  (floodfillOrder nextCells fuel {ant} (nextCells ant)).map
    (fun c => Move.mk .Ant (some ant) c)

/-- The straight-line walk of `Player.grasshoppers_moves` in one direction:
stop off board, land on the first empty cell provided something was skipped.
The fuel bounds the walk, which the source bounds by the board edge. -/
def grasshopperWalk (s : PlayerSt) (d : Cell) : Cell → Bool → Nat → Option Cell
  | _, _, 0 => none
  | pos, skipped, fuel + 1 =>
    let gs := cadd pos d
    if !inBoard s gs then none
    else if isEmptyCell s gs then (if skipped then some gs else none)
    else grasshopperWalk s d gs true fuel

/-- `Player.grasshoppers_moves`: jump in each direction over at least one
piece onto the first empty cell, with the grasshopper lifted off the board. -/
def grasshoppersMoves (s : PlayerSt) (grasshopper : Cell) : List Move :=
  let s1 := (removePieceFromBoard s grasshopper).1
  let fuel := s1.size.natAbs * 2 + 4
  DIRECTIONS.filterMap (fun d =>
    (grasshopperWalk s1 d grasshopper false fuel).map
      (fun c => Move.mk .Grasshopper (some grasshopper) c))

/-- One layer of `Player.spiders_moves`: add each stack item to the visited
set in turn and collect its unvisited freedom-to-move steps. -/
def spiderLayer (s : PlayerSt) : List Cell → Finset Cell → Finset Cell × List Cell
  | [], visited => (visited, [])
  | item :: rest, visited =>
    let visited1 := insert item visited
    let new := (validSteps s item false).filter (fun n => decide (n ∉ visited1))
    let (v2, tail) := spiderLayer s rest visited1
    (v2, new ++ tail)

/-- `Player.spiders_moves`: exactly three breadth-first layers of
freedom-to-move steps, never revisiting, with the spider lifted off the board. -/
def spidersMoves (s : PlayerSt) (spider : Cell) : List Move :=
  let s1 := (removePieceFromBoard s spider).1
  let l1 := spiderLayer s1 [spider] ∅
  let l2 := spiderLayer s1 l1.2 l1.1
  let l3 := spiderLayer s1 l2.2 l2.1
  l3.2.map (fun c => Move.mk .Spider (some spider) c)

/-- `Player.is_my_cell`: the top piece of the cell belongs to the player. -/
def isMyCell (s : PlayerSt) (cell : Cell) : Bool :=
  let piece := topPieceD s cell
  (piece.isUpper == s.upper) || (piece.isLower != s.upper)

/-- `Player.neighbors_only_my_pieces`: every occupied neighbor belongs to the
player. -/
def neighborsOnlyMyPieces (s : PlayerSt) (cell : Cell) : Bool :=
  (neighborsOcc s cell).all (fun n => isMyCell s n)

/-- `Player.cells_around_hive`: the set of empty in-board cells neighboring
some hive cell. -/
def cellsAroundHive (s : PlayerSt) : Finset Cell :=
  s.hive.biUnion (fun c => (emptyNeighboringCells s c).toFinset)

/-- `Player.valid_placements`: cells around the hive all of whose occupied
neighbors are the placing side. -/
def validPlacements (s : PlayerSt) : Finset Cell :=
  (cellsAroundHive s).filter (fun c => neighborsOnlyMyPieces s c = true)

/-- `Player.my_placable_pieces`: reserve kinds with a positive count. -/
def myPlacablePieces (s : PlayerSt) : List Piece :=
  (s.myPieces.filter (fun pc => pc.2 > 0)).map (fun pc => pc.1)

/-- `Player.my_piece_remaining`: the reserve count of one kind. -/
def myPieceRemaining (s : PlayerSt) (p : Piece) : Nat :=
  ((s.myPieces.find? (fun x => x.1 == p)).map (fun x => x.2)).getD 0

/-- The per-kind move generator dispatch table of `Player.valid_moves`. -/
def pieceMovesFor (s : PlayerSt) : Piece → Cell → List Move
  | .Ant => antsMoves s
  | .Queen => queensMoves s
  | .Beetle => beetlesMoves s
  | .Grasshopper => grasshoppersMoves s
  | .Spider => spidersMoves s

/-- The placement half of `Player.valid_moves` (`place_iter`): any placable
reserve kind on any valid placement cell, as a set since the source iterates
a Python set. -/
def placementMoves (s : PlayerSt) : Finset Move :=
  (validPlacements s).biUnion
    (fun c => ((myPlacablePieces s).map (fun p => Move.mk p none c)).toFinset)

/-- The movement half of `Player.valid_moves` (`move_iter`): for every hive
cell holding one of my pieces whose removal keeps the hive connected, the
moves of its kind. -/
def movementMoves (s : PlayerSt) : Finset Move :=
  s.hive.biUnion (fun c =>
    if isMyCell s c = true ∧ movingBreaksHive s c = false then
      match pieceFromChar (topPieceD s c) with
      | some p => (pieceMovesFor s p c).toFinset
      | none => ∅
    else ∅)

/-- `Player.valid_moves`: on turn 3 with the queen still in reserve, only
queen placements; before turn 4 only placements; from turn 4 on placements
and movements. -/
def validMoves (s : PlayerSt) : Finset Move :=
  if myPieceRemaining s .Queen > 0 ∧ s.myMove = 3 then
    (validPlacements s).image (fun c => Move.mk .Queen none c)
  else if 4 ≤ s.myMove then placementMoves s ∪ movementMoves s
  else placementMoves s

/-- The evaluation table for pieces of the evaluated side. -/
def EVAL_TABLE_MY : List Int := [1, 600, 200, 1000, -400, -1000000, -400, 200]

/-- The evaluation table for rival pieces. -/
def EVAL_TABLE_RIVAL : List Int := [-1, -500, -200, -1200, 400, 1000000, 400, -100]

/-- Criteria index BASE. -/
def criteriaBase : Nat := 0

/-- Criteria index GENERIC_BLOCKING. -/
def criteriaGenericBlocking : Nat := 1

/-- Criteria index BEETLE_BLOCKING. -/
def criteriaBeetleBlocking : Nat := 2

/-- Criteria index BEETLE_BLOCKING_QUEEN_BONUS. -/
def criteriaBeetleBlockingQueenBonus : Nat := 3

/-- Criteria index QUEEN_NEIGHBOR. -/
def criteriaQueenNeighbor : Nat := 4

/-- Criteria index QUEEN_SURROUNDED. -/
def criteriaQueenSurrounded : Nat := 5

/-- Criteria index QUEEN_BLOCKED. -/
def criteriaQueenBlocked : Nat := 6

/-- The loop of `is_blocking_rival_piece` over the occupied neighbors of the
cell: fail on a neighbor owned by `targetPlayer` or on a second neighbor,
succeed when exactly one rival neighbor was seen. -/
def ibrLoop (s : PlayerSt) (targetPlayer : Bool) : List Cell → Bool → Bool
  | [], seen => seen
  | n :: rest, seen =>
    if (topPieceD s n).isUpper == targetPlayer then false
    else if seen then false
    else ibrLoop s targetPlayer rest true

/-- `is_blocking_rival_piece`: the cell has exactly one occupied neighbor and
that neighbor is not owned by `targetPlayer`. -/
def isBlockingRivalPiece (s : PlayerSt) (cell : Cell) (targetPlayer : Bool) : Bool :=
  ibrLoop s targetPlayer (neighborsOcc s cell) false

/-- `evaluate_cell`: score one occupied cell from the point of view of
`targetPlayer`, returning a terminal state when a queen is fully surrounded;
`none` models the exceptions the source would raise on an empty cell or an
unknown piece letter. -/
def evaluateCell (s : PlayerSt) (cell : Cell) (targetPlayer : Bool) :
    Option (Int × State) := do
  let topPiece ← topPieceIn s cell
  let piece ← pieceFromChar topPiece
  let pieceIsUpper := topPiece.isUpper
  let my := pieceIsUpper == targetPlayer
  let table := if my then EVAL_TABLE_MY else EVAL_TABLE_RIVAL
  let score0 := table.getD criteriaBase 0
  let score1 :=
    if piece ≠ .Queen ∧ isBlockingRivalPiece s cell pieceIsUpper = true then
      table.getD criteriaGenericBlocking 0
    else score0
  if piece = .Beetle then
    let pieces := s.board cell
    if 2 ≤ pieces.length then
      let second := pieces.getD (pieces.length - 2) '.'
      if second.isUpper ≠ pieceIsUpper then
        let sc := score1 + table.getD criteriaBeetleBlocking 0
        let sc := if second.toUpper = 'Q' then
            sc + table.getD criteriaBeetleBlockingQueenBonus 0
          else sc
        return (sc, .RUNNING)
      else
        return (score1 - table.getD criteriaGenericBlocking 0, .RUNNING)
    else
      return (score1, .RUNNING)
  else if piece = .Queen then
    let c := (neighborsOcc s cell).length
    if c = 6 then
      return (table.getD criteriaQueenSurrounded 0, if my = true then .LOSS else .WIN)
    else
      let sc := (table.getD criteriaQueenNeighbor 0) * ((c : Int) - 1)
      let sc := if movingBreaksHive s cell then sc + table.getD criteriaQueenBlocked 0 else sc
      return (sc, .RUNNING)
  else
    return (score1, .RUNNING)

/-- A node of the minimax tree: the producing move, the score, the owned
children, the reached depth, the outcome state, and the stray `end` attribute
that `next_depth` writes its depth-1 terminal state into. -/
inductive Node where
  | mk (move : Move) (score : Int) (children : List Node) (depth : Nat)
      (state : State) (endAttr : Option State)

/-- The move that produced the node. -/
def Node.move : Node → Move
  | .mk m _ _ _ _ _ => m

/-- The score of the node. -/
def Node.score : Node → Int
  | .mk _ sc _ _ _ _ => sc

/-- The children of the node. -/
def Node.children : Node → List Node
  | .mk _ _ cs _ _ _ => cs

/-- The reached depth of the node. -/
def Node.depth : Node → Nat
  | .mk _ _ _ d _ _ => d

/-- The outcome state of the node. -/
def Node.state : Node → State
  | .mk _ _ _ _ st _ => st

/-- The stray `end` attribute of the node (absent until written). -/
def Node.endAttr : Node → Option State
  | .mk _ _ _ _ _ e => e

/-- Insert a node into a list sorted by descending score, after every node
with a greater or equal score (the stable order Python `list.sort` with
`reverse=True` produces under the `Node.__gt__` comparison). -/
def insertDesc (x : Node) : List Node → List Node
  | [] => [x]
  | y :: ys => if x.score < y.score then y :: insertDesc x ys else x :: y :: ys

/-- Stable sort by descending score, modelling `children.sort(reverse=True)`. -/
def sortDesc : List Node → List Node
  | [] => []
  | x :: xs => insertDesc x (sortDesc xs)

/-- A placeholder node, never produced by the search. -/
def defaultNode : Node := .mk (Move.mk .Queen none (0, 0)) 0 [] 0 .RUNNING none

/-- The beam width of `Node.evaluate_children` at a node depth. -/
def beamLimit (depth : Nat) : Nat :=
  if depth ≤ 4 then 10 else if depth ≤ 6 then 5 else 2

/-- `Node.evaluate_children`: an empty children list evaluates to (0, DRAW);
otherwise sort the children by descending score, truncate to the beam width,
and negate the score and invert the state of the first (best) survivor. -/
def evaluateChildren (depth : Nat) (children : List Node) : List Node × Int × State :=
  match children with
  | [] => ([], 0, .DRAW)
  | _ :: _ =>
    let pruned := (sortDesc children).take (beamLimit depth)
    let best := pruned.headD defaultNode
    (pruned, -best.score, best.state.inverse)

/-- The board operations the search engine uses, as the source uses the
shared `Player` object: apply and reverse a move, enumerate legal moves, and
statically evaluate the position. -/
structure GameOps (σ : Type) where
  playMove : σ → Move → σ
  reverseMove : σ → Move → σ
  validMoves : σ → List Move
  evaluatePosition : σ → Bool → Int × State

mutual

/-- `Node.next_depth`: return immediately on a terminal state; fail when the
deadline has passed (`past t` is the t-th reading of the clock); otherwise
bump the depth and, under play-then-reverse of the node move: at depth 1
store the static evaluation (the score into the node, the state into the
stray `end` attribute, as the source does); at depth 2 materialize the
children from the legal moves; beyond, deepen every child with the opposite
perspective, aborting on the first failure; finally fold the children. -/
def nextDepth {σ : Type} (ops : GameOps σ) (past : Nat → Bool) (tgt : Bool)
    (n : Node) (s : σ) (t : Nat) : Node × σ × Nat × Bool :=
  if n.state.isEnd then (n, s, t, true)
  else if past t then (n, s, t + 1, false)
  else
    match n with
    | .mk mv sc cs dp st ea =>
      let d := dp + 1
      let s1 := ops.playMove s mv
      if d = 1 then
        let r := ops.evaluatePosition s1 tgt
        (.mk mv r.1 cs d st (some r.2), ops.reverseMove s1 mv, t + 1, true)
      else if d = 2 then
        let cs1 := (ops.validMoves s1).map (fun m => Node.mk m 0 [] 0 .RUNNING none)
        let e := evaluateChildren d cs1
        (.mk mv e.2.1 e.1 d e.2.2 ea, ops.reverseMove s1 mv, t + 1, true)
      else
        let r := nextDepthList ops past (!tgt) cs s1 (t + 1)
        if r.2.2.2 then
          let e := evaluateChildren d r.1
          (.mk mv e.2.1 e.1 d e.2.2 ea, ops.reverseMove r.2.1 mv, r.2.2.1, true)
        else
          (.mk mv sc r.1 d st ea, ops.reverseMove r.2.1 mv, r.2.2.1, false)

/-- Deepen a list of sibling nodes in order, threading the board state and
the clock, aborting on the first failure and keeping the partial updates. -/
def nextDepthList {σ : Type} (ops : GameOps σ) (past : Nat → Bool) (tgt : Bool)
    (l : List Node) (s : σ) (t : Nat) : List Node × σ × Nat × Bool :=
  match l with
  | [] => ([], s, t, true)
  | c :: rest =>
    let r := nextDepth ops past tgt c s t
    if r.2.2.2 then
      let r2 := nextDepthList ops past tgt rest r.2.1 r.2.2.1
      (r.1 :: r2.1, r2.2)
    else
      (r.1 :: rest, r.2)

end

/-- Python `max` over a nonempty list with the `Node.__gt__` comparison:
keep the first node of maximal score. -/
def maxNode (cur : Node) : List Node → Node
  | [] => cur
  | x :: xs => maxNode (if x.score > cur.score then x else cur) xs

/-- `Move.to_brute`: the externally visible move tuple. -/
def Move.toBrute (m : Move) (upper : Bool) : Char × Option Cell × Cell :=
  (pieceStrOf m upper, m.start, m.end_)

/-- The root beam width of `Player.minimax` at a round index. -/
def rootLimit (d : Nat) (len : Nat) : Nat :=
  if d ≤ 2 then len else if d ≤ 5 then 5 else 2

/-- The round loop of `Player.minimax`: break on the deadline; deepen every
candidate, returning the running best on a mid-round failure; return the
first WIN candidate immediately; drop LOSS candidates, sort, truncate to the
root beam, and recurse with the best survivor as the new running best.  The
fuel replaces the unbounded `count()` iteration of the source. -/
def minimaxLoop {σ : Type} (ops : GameOps σ) (past : Nat → Bool) (upper : Bool) :
    Nat → List Node → Node → σ → Nat → Nat → Char × Option Cell × Cell
  | 0, _, best, _, _, _ => best.move.toBrute upper
  | fuel + 1, nodes, best, s, d, t =>
    if past t then best.move.toBrute upper
    else
      let r := nextDepthList ops past upper nodes s (t + 1)
      if r.2.2.2 then
        let nodes1 := r.1
        let limit := rootLimit d nodes1.length
        match nodes1.find? (fun n => n.state == State.WIN) with
        | some w => w.move.toBrute upper
        | none =>
          let surviving := ((sortDesc nodes1).filter (fun n => n.state != State.LOSS)).take limit
          match surviving with
          | [] => best.move.toBrute upper
          | b :: rest =>
            minimaxLoop ops past upper fuel surviving (maxNode b rest) r.2.1 (d + 1) r.2.2.1
      else best.move.toBrute upper

/-- `Player.minimax`: start with the first candidate as the running best;
the source indexes `nodes[0]` and is only called on a nonempty list, so the
empty list maps to `none`. -/
def minimax {σ : Type} (ops : GameOps σ) (past : Nat → Bool) (upper : Bool)
    (fuel : Nat) (nodes : List Node) (s : σ) (t : Nat) :
    Option (Char × Option Cell × Cell) :=
  match nodes with
  | [] => none
  | b :: _ => some (minimaxLoop ops past upper fuel nodes b s 0 t)

/-- The spec wording of the freedom-to-move rule without crawl-over: the
target is empty, both flanking cells (origin plus the move direction rotated
one hex step left and right) are in board, and exactly one of them is empty. -/
def specFreeSlide (s : PlayerSt) (origin target : Cell) : Prop :=
  isEmptyCell s target = true ∧
  inBoard s (cadd origin (rotateLeft (csub target origin))) = true ∧
  inBoard s (cadd origin (rotateRight (csub target origin))) = true ∧
  ((isEmptyCell s (cadd origin (rotateLeft (csub target origin))) = true ∧
      isEmptyCell s (cadd origin (rotateRight (csub target origin))) = false) ∨
    (isEmptyCell s (cadd origin (rotateLeft (csub target origin))) = false ∧
      isEmptyCell s (cadd origin (rotateRight (csub target origin))) = true))

/-- The spec wording of the crawl-over variant: at least one in-board
flanking cell is occupied; the target may be occupied or empty. -/
def specCrawlOver (s : PlayerSt) (origin target : Cell) : Prop :=
  (inBoard s (cadd origin (rotateLeft (csub target origin))) = true ∧
    isEmptyCell s (cadd origin (rotateLeft (csub target origin))) = false) ∨
  (inBoard s (cadd origin (rotateRight (csub target origin))) = true ∧
    isEmptyCell s (cadd origin (rotateRight (csub target origin))) = false)

/-- Claim C3: for every origin and adjacent target, the freedom-to-move test
without crawl-over holds exactly when the target is empty, both flanking
cells are in board and exactly one of them is empty; with crawl-over it holds
exactly when at least one in-board flanking cell is occupied. -/
theorem canMoveTo_spec (s : PlayerSt) (origin target : Cell)
    (_hadj : adjacent origin target) :
    (canMoveTo s origin target false = true ↔ specFreeSlide s origin target) ∧
    (canMoveTo s origin target true = true ↔ specCrawlOver s origin target) := by
  unfold canMoveTo specFreeSlide specCrawlOver
  cases hT : isEmptyCell s target <;>
    cases hL : isEmptyCell s (cadd origin (rotateLeft (csub target origin))) <;>
    cases hR : isEmptyCell s (cadd origin (rotateRight (csub target origin))) <;>
    simp [hT, hL, hR]

theorem upper_playMove (s : PlayerSt) (m : Move) : (playMove s m).upper = s.upper := by
  rcases m with ⟨pc, st, en⟩
  cases st <;> rfl

theorem remove_add_cancel (s : PlayerSt) (cell : Cell) (piece : Char)
    (hinv : cell ∈ s.hive ↔ s.board cell ≠ []) :
    (removePieceFromBoard (addPieceToBoard s cell piece) cell).1 = s := by
  obtain ⟨bd, sz, hv, up, mp, mm⟩ := s
  dsimp only at hinv
  refine PlayerSt.ext ?_ rfl ?_ rfl rfl rfl
  · funext c
    by_cases hc : c = cell
    · subst hc
      simp [removePieceFromBoard, addPieceToBoard]
    · simp [removePieceFromBoard, addPieceToBoard, hc]
  · simp only [removePieceFromBoard, addPieceToBoard, if_true, List.dropLast_concat]
    by_cases hb : bd cell = []
    · simp only [hb, if_pos rfl]
      exact Finset.erase_insert (by simp_all)
    · rw [if_neg hb]
      exact Finset.insert_eq_self.mpr (hinv.mpr hb)

theorem add_remove_cancel (s : PlayerSt) (cell : Cell) (piece : Char)
    (hinv : cell ∈ s.hive ↔ s.board cell ≠ [])
    (htop : (s.board cell).getLast? = some piece) :
    addPieceToBoard (removePieceFromBoard s cell).1 cell piece = s := by
  obtain ⟨bd, sz, hv, up, mp, mm⟩ := s
  dsimp only at hinv htop
  have hne : bd cell ≠ [] := by
    intro h
    rw [h] at htop
    simp at htop
  have hdl : (bd cell).dropLast ++ [piece] = bd cell := by
    have hl := List.getLast?_eq_getLast (bd cell) hne
    rw [hl] at htop
    have hp : piece = (bd cell).getLast hne := (Option.some.injEq _ _).mp htop.symm
    rw [hp]
    exact List.dropLast_append_getLast hne
  have hm : cell ∈ hv := hinv.mpr hne
  refine PlayerSt.ext ?_ rfl ?_ rfl rfl rfl
  · funext c
    by_cases hc : c = cell
    · subst hc
      simp [removePieceFromBoard, addPieceToBoard, hdl]
    · simp [removePieceFromBoard, addPieceToBoard, hc]
  · simp only [removePieceFromBoard, addPieceToBoard, if_true]
    by_cases hb : (bd cell).dropLast = []
    · rw [if_pos hb]
      exact Finset.insert_erase hm
    · rw [if_neg hb]
      exact Finset.insert_eq_self.mpr hm

/-- Claim C1: in every state satisfying the hive invariant, playing a legal
move (a placement, or a relocation of the top piece at its start cell) and
then reversing it restores the board mapping and the hive set exactly. -/
theorem play_reverse_roundtrip (s : PlayerSt) (m : Move)
    (hinv : ∀ c, c ∈ s.hive ↔ s.board c ≠ [])
    (hlegal : ∀ st, m.start = some st →
      (s.board st).getLast? = some (pieceStrOf m s.upper)) :
    reverseMove (playMove s m) m = s := by
  rcases m with ⟨pc, st, en⟩
  cases st with
  | none =>
    exact remove_add_cancel s en _ (hinv en)
  | some st =>
    have htop := hlegal st rfl
    by_cases hse : st = en
    · subst hse
      have hplay : playMove s ⟨pc, some st, st⟩ = s :=
        add_remove_cancel s st _ (hinv st) htop
      show reverseMove (playMove s ⟨pc, some st, st⟩) ⟨pc, some st, st⟩ = s
      rw [hplay]
      exact remove_add_cancel s st _ (hinv st)
    · obtain ⟨bd, sz, hv, up, mp, mm⟩ := s
      dsimp only at hinv htop
      have hnes : Ne st en := hse
      have hen : Ne en st := fun h => hse h.symm
      have hne : bd st ≠ [] := by
        intro h
        rw [h] at htop
        simp at htop
      have hdl : (bd st).dropLast ++ [pieceStrOf ⟨pc, some st, en⟩ up] = bd st := by
        have hl := List.getLast?_eq_getLast (bd st) hne
        rw [hl] at htop
        have hp : pieceStrOf ⟨pc, some st, en⟩ up = (bd st).getLast hne :=
          (Option.some.injEq _ _).mp htop.symm
        rw [hp]
        exact List.dropLast_append_getLast hne
      have hst : st ∈ hv := (hinv st).mpr hne
      refine PlayerSt.ext ?_ rfl ?_ rfl rfl rfl
      · funext c
        simp only [reverseMove, playMove, removePieceFromBoard, addPieceToBoard]
        by_cases h1 : c = en
        · subst h1
          simp [hen, List.dropLast_concat]
        · by_cases h2 : c = st
          · subst h2
            simp [hnes, hdl]
          · simp [h1, h2]
      · simp only [reverseMove, playMove, removePieceFromBoard, addPieceToBoard,
          if_neg hen, if_true, List.dropLast_concat]
        by_cases hbe : bd en = []
        · rw [if_pos hbe]
          have henv : en ∉ hv := fun h => (hinv en).mp h hbe
          by_cases hbs : (bd st).dropLast = []
          · rw [if_pos hbs, Finset.erase_insert_of_ne hnes,
              Finset.erase_insert (by simp [henv]), Finset.insert_erase hst]
          · rw [if_neg hbs, Finset.erase_insert_of_ne hnes,
              Finset.erase_insert henv]
            exact Finset.insert_eq_self.mpr hst
        · have henv : en ∈ hv := (hinv en).mpr hbe
          rw [if_neg hbe]
          by_cases hbs : (bd st).dropLast = []
          · rw [if_pos hbs,
              Finset.insert_eq_self.mpr (Finset.mem_erase.mpr ⟨hen, henv⟩),
              Finset.insert_erase hst]
          · rw [if_neg hbs, Finset.insert_eq_self.mpr henv]
            exact Finset.insert_eq_self.mpr hst

/-- A concrete state for exercising the round-trip law: one white queen on
cell (0,0). -/
def stC1 : PlayerSt :=
  { board := fun c => if c = ((0 : Int), (0 : Int)) then ['Q'] else [],
    size := 13, hive := {((0 : Int), (0 : Int))}, upper := true,
    myPieces := [(Piece.Spider, 2)], myMove := 1 }

/-- A concrete placement move next to the queen of `stC1`. -/
def mvC1 : Move := ⟨.Spider, none, (1, 0)⟩

theorem play_reverse_roundtrip_witness :
    reverseMove (playMove stC1 mvC1) mvC1 = stC1 :=
  play_reverse_roundtrip stC1 mvC1
    (by
      intro c
      by_cases h : c = ((0 : Int), (0 : Int)) <;> simp [stC1, h])
    (by
      intro st h
      simp [mvC1] at h)

theorem mem_insertDesc (x y : Node) (l : List Node) :
    y ∈ insertDesc x l ↔ y = x ∨ y ∈ l := by
  induction l with
  | nil => simp [insertDesc]
  | cons z zs ih =>
    simp only [insertDesc]
    split
    · simp only [List.mem_cons, ih]
      tauto
    · simp only [List.mem_cons]

theorem length_insertDesc (x : Node) (l : List Node) :
    (insertDesc x l).length = l.length + 1 := by
  induction l with
  | nil => rfl
  | cons z zs ih =>
    simp only [insertDesc]
    split <;> simp [ih]

theorem mem_sortDesc (y : Node) (l : List Node) : y ∈ sortDesc l ↔ y ∈ l := by
  induction l with
  | nil => simp [sortDesc]
  | cons x xs ih => simp [sortDesc, mem_insertDesc, ih]

theorem length_sortDesc (l : List Node) : (sortDesc l).length = l.length := by
  induction l with
  | nil => rfl
  | cons x xs ih => simp [sortDesc, length_insertDesc, ih]

theorem pairwise_insertDesc (x : Node) (l : List Node)
    (h : l.Pairwise (fun a b => b.score ≤ a.score)) :
    (insertDesc x l).Pairwise (fun a b => b.score ≤ a.score) := by
  induction l with
  | nil => simp [insertDesc]
  | cons y ys ih =>
    rw [List.pairwise_cons] at h
    simp only [insertDesc]
    split
    · rename_i hlt
      rw [List.pairwise_cons]
      refine ⟨?_, ih h.2⟩
      intro z hz
      rcases (mem_insertDesc x z ys).mp hz with rfl | hz
      · exact le_of_lt hlt
      · exact h.1 z hz
    · rename_i hge
      push_neg at hge
      rw [List.pairwise_cons]
      refine ⟨?_, List.pairwise_cons.mpr h⟩
      intro z hz
      rcases List.mem_cons.mp hz with rfl | hz
      · exact hge
      · exact le_trans (h.1 z hz) hge

theorem pairwise_sortDesc (l : List Node) :
    (sortDesc l).Pairwise (fun a b => b.score ≤ a.score) := by
  induction l with
  | nil => simp [sortDesc]
  | cons x xs ih => exact pairwise_insertDesc x _ ih

theorem sortDesc_cons_max (l : List Node) (hd : Node) (tl : List Node)
    (h : sortDesc l = hd :: tl) : ∀ x ∈ l, x.score ≤ hd.score := by
  intro x hx
  have hx2 : x ∈ hd :: tl := h ▸ (mem_sortDesc x l).mpr hx
  have hp := pairwise_sortDesc l
  rw [h, List.pairwise_cons] at hp
  rcases List.mem_cons.mp hx2 with rfl | hx2
  · exact le_refl _
  · exact hp.1 x hx2

theorem beamLimit_pos (depth : Nat) : 0 < beamLimit depth := by
  unfold beamLimit
  split
  · norm_num
  · split <;> norm_num

/-- Claim C5: a node with no children evaluates to (0, DRAW); otherwise the
score is the negation of the best surviving child score and the state is that
child state inverted, where inversion swaps WIN and LOSS and fixes DRAW and
RUNNING. -/
theorem evaluateChildren_negamax (depth : Nat) (children : List Node) :
    (children = [] → evaluateChildren depth children = ([], 0, .DRAW)) ∧
    (children ≠ [] →
      ∃ b, b ∈ (evaluateChildren depth children).1 ∧ b ∈ children ∧
        (∀ c ∈ children, c.score ≤ b.score) ∧
        (evaluateChildren depth children).2.1 = -b.score ∧
        (evaluateChildren depth children).2.2 = b.state.inverse) ∧
    State.WIN.inverse = .LOSS ∧ State.LOSS.inverse = .WIN ∧
    State.DRAW.inverse = .DRAW ∧ State.RUNNING.inverse = .RUNNING := by
  refine ⟨?_, ?_, rfl, rfl, rfl, rfl⟩
  · intro h
    subst h
    rfl
  · intro h
    match children, h with
    | c :: cs, _ =>
      have hsl : sortDesc (c :: cs) ≠ [] := by
        intro he
        have hlen := length_sortDesc (c :: cs)
        rw [he] at hlen
        simp at hlen
      obtain ⟨hd, tl, hht⟩ : ∃ hd tl, sortDesc (c :: cs) = hd :: tl := by
        cases hsd : sortDesc (c :: cs) with
        | nil => exact absurd hsd hsl
        | cons a b => exact ⟨a, b, rfl⟩
      obtain ⟨k, hk⟩ : ∃ k, beamLimit depth = k + 1 :=
        ⟨beamLimit depth - 1, by have := beamLimit_pos depth; omega⟩
      refine ⟨hd, ?_, ?_, ?_, ?_, ?_⟩
      · simp only [evaluateChildren, hht, hk, List.take_succ_cons, List.headD_cons]
        exact List.mem_cons_self hd _
      · exact (mem_sortDesc hd (c :: cs)).mp (hht ▸ List.mem_cons_self hd tl)
      · exact sortDesc_cons_max (c :: cs) hd tl hht
      · simp only [evaluateChildren, hht, hk, List.take_succ_cons, List.headD_cons]
      · simp only [evaluateChildren, hht, hk, List.take_succ_cons, List.headD_cons]

/-- Concrete children for exercising the negamax evaluation. -/
def childrenC5 : List Node :=
  [.mk ⟨.Ant, none, (1, 0)⟩ 3 [] 1 .RUNNING none,
   .mk ⟨.Spider, none, (0, 1)⟩ 7 [] 1 .RUNNING none]

theorem evaluateChildren_negamax_witness :
    ∃ b, b ∈ (evaluateChildren 3 childrenC5).1 ∧ b ∈ childrenC5 ∧
      (∀ c ∈ childrenC5, c.score ≤ b.score) ∧
      (evaluateChildren 3 childrenC5).2.1 = -b.score ∧
      (evaluateChildren 3 childrenC5).2.2 = b.state.inverse :=
  (evaluateChildren_negamax 3 childrenC5).2.1 (by simp [childrenC5])

/-- Board operations over a trivial state whose static evaluation always
reports a WIN with score 5. -/
def constWinOps : GameOps Unit :=
  { playMove := fun _ _ => (), reverseMove := fun _ _ => (),
    validMoves := fun _ => [], evaluatePosition := fun _ _ => (5, .WIN) }

/-- A fresh, never deepened node. -/
def freshNodeC4 : Node := .mk ⟨.Queen, none, (0, 0)⟩ 0 [] 0 .RUNNING none

/-- A node already carrying a terminal state. -/
def wonNodeC4 : Node := .mk ⟨.Queen, none, (0, 0)⟩ 9 [] 1 .WIN none

/-- Claim C4 fails on the code: deepening a fresh node whose static
evaluation is terminal (score 5, WIN) stores the terminal state into the
stray `end` attribute and leaves the node outcome state RUNNING, so the
terminal outcome never reaches the state field that gates further deepening;
a node whose state is already terminal is indeed returned unchanged. -/
theorem nextDepth_depth1_win_not_stored :
    (nextDepth constWinOps (fun _ => false) true freshNodeC4 () 0).1.state
        = State.RUNNING ∧
    (nextDepth constWinOps (fun _ => false) true freshNodeC4 () 0).1.state
        ≠ State.WIN ∧
    (nextDepth constWinOps (fun _ => false) true freshNodeC4 () 0).1.endAttr
        = some State.WIN ∧
    (nextDepth constWinOps (fun _ => false) true freshNodeC4 () 0).1.score = 5 ∧
    nextDepth constWinOps (fun _ => false) true wonNodeC4 () 0
        = (wonNodeC4, (), 0, true) := by
  refine ⟨?_, ?_, ?_, ?_, ?_⟩ <;> simp [nextDepth, constWinOps, freshNodeC4,
    wonNodeC4, Node.state, Node.endAttr, Node.score, State.isEnd, State.val]

/-- Claim C7: when the clock reads past the deadline at a round entry, or
some deepening call inside the round fails on the deadline, the search
returns the running best move, which is the best of the last fully completed
round (initially the first candidate); at top level the first candidate move
is returned when the deadline has already elapsed. -/
theorem minimax_deadline_returns_previous_best {σ : Type} (ops : GameOps σ)
    (past : Nat → Bool) (upper : Bool) (fuel : Nat) (nodes : List Node)
    (best : Node) (s : σ) (d t : Nat) :
    (past t = true →
      minimaxLoop ops past upper (fuel + 1) nodes best s d t
        = best.move.toBrute upper) ∧
    (past t = false →
      (nextDepthList ops past upper nodes s (t + 1)).2.2.2 = false →
      minimaxLoop ops past upper (fuel + 1) nodes best s d t
        = best.move.toBrute upper) ∧
    (∀ (n : Node) (rest : List Node), past t = true →
      minimax ops past upper (fuel + 1) (n :: rest) s t
        = some (n.move.toBrute upper)) := by
  refine ⟨?_, ?_, ?_⟩
  · intro h
    simp [minimaxLoop, h]
  · intro h1 h2
    simp [minimaxLoop, h1, h2]
  · intro n rest h
    simp [minimax, minimaxLoop, h]

/-- Trivial board operations whose static evaluation never terminates the game. -/
def opsC7 : GameOps Unit :=
  { playMove := fun _ _ => (), reverseMove := fun _ _ => (),
    validMoves := fun _ => [], evaluatePosition := fun _ _ => (0, .RUNNING) }

/-- A concrete root candidate. -/
def nodeC7 : Node := .mk ⟨.Grasshopper, none, (2, 3)⟩ 0 [] 0 .RUNNING none

theorem minimax_deadline_witness :
    minimax opsC7 (fun _ => true) true 1 [nodeC7] () 0
      = some (nodeC7.move.toBrute true) :=
  (minimax_deadline_returns_previous_best opsC7 (fun _ => true) true 0 [nodeC7]
    nodeC7 () 0 0).2.2 nodeC7 [] rfl

/-- Scores and states of a node list, used to compare pruning outcomes. -/
def scoreStateList (l : List Node) : List (Int × State) :=
  l.map (fun n => (n.score, n.state))

/-- Children where a WIN child has the lowest raw score: two RUNNING nodes
above it and a beam of width 2 at depth 7. -/
def childrenC6 : List Node :=
  [.mk ⟨.Ant, none, (1, 0)⟩ 100 [] 1 .RUNNING none,
   .mk ⟨.Spider, none, (0, 1)⟩ 50 [] 1 .RUNNING none,
   .mk ⟨.Beetle, none, (1, 1)⟩ 5 [] 1 .WIN none]

/-- Claim C6 fails on the code: the child-list truncation at depth 7 keeps
the two higher-scoring non-winning children and drops the WIN child. -/
theorem evaluateChildren_drops_win_counterexample :
    scoreStateList childrenC6
        = [(100, .RUNNING), (50, .RUNNING), (5, .WIN)] ∧
    scoreStateList (evaluateChildren 7 childrenC6).1
        = [(100, .RUNNING), (50, .RUNNING)] ∧
    ((5 : Int), State.WIN) ∉ scoreStateList (evaluateChildren 7 childrenC6).1 := by
  refine ⟨?_, ?_, ?_⟩ <;> decide

/-- Claim C6 amended: child-list truncation orders purely by raw score, so
every kept child scores at least every dropped child (a WIN child is
protected only through its score); at the root a WIN candidate is returned
immediately after a completed round and is never dropped. -/
theorem pruning_score_order_and_root_win :
    (∀ (depth : Nat) (children : List Node),
      sortDesc children = (evaluateChildren depth children).1 ++
          (sortDesc children).drop (beamLimit depth) ∧
      (∀ k ∈ (evaluateChildren depth children).1,
        ∀ x ∈ (sortDesc children).drop (beamLimit depth), x.score ≤ k.score)) ∧
    (∀ (σ : Type) (ops : GameOps σ) (past : Nat → Bool) (upper : Bool)
      (fuel : Nat) (nodes : List Node) (best : Node) (s : σ) (d t : Nat)
      (w : Node),
      past t = false →
      (nextDepthList ops past upper nodes s (t + 1)).2.2.2 = true →
      w ∈ (nextDepthList ops past upper nodes s (t + 1)).1 →
      w.state = State.WIN →
      ∃ w2, w2 ∈ (nextDepthList ops past upper nodes s (t + 1)).1 ∧
        w2.state = State.WIN ∧
        minimaxLoop ops past upper (fuel + 1) nodes best s d t
          = w2.move.toBrute upper) := by
  constructor
  · intro depth children
    cases children with
    | nil => simp [evaluateChildren, sortDesc]
    | cons c cs =>
      have heq : (evaluateChildren depth (c :: cs)).1
          = (sortDesc (c :: cs)).take (beamLimit depth) := rfl
      constructor
      · rw [heq, List.take_append_drop]
      · rw [heq]
        have hp := pairwise_sortDesc (c :: cs)
        rw [← List.take_append_drop (beamLimit depth) (sortDesc (c :: cs)),
          List.pairwise_append] at hp
        intro k hk x hx
        exact hp.2.2 k hk x hx
  · intro σ ops past upper fuel nodes best s d t w h1 h2 hw hwst
    have hfind : ((nextDepthList ops past upper nodes s (t + 1)).1.find?
        (fun n => n.state == State.WIN)).isSome :=
      List.find?_isSome.mpr ⟨w, hw, by simp [hwst]⟩
    obtain ⟨w2, hw2⟩ := Option.isSome_iff_exists.mp hfind
    have hw2mem : w2 ∈ (nextDepthList ops past upper nodes s (t + 1)).1 :=
      List.mem_of_find?_eq_some hw2
    have hw2win : w2.state = State.WIN := by
      have hp := List.find?_some hw2
      simpa using hp
    refine ⟨w2, hw2mem, hw2win, ?_⟩
    simp [minimaxLoop, h1, h2, hw2]

/-- Trivial board operations used to drive the search model on a stub state. -/
def opsC6 : GameOps Unit :=
  { playMove := fun _ _ => (), reverseMove := fun _ _ => (),
    validMoves := fun _ => [], evaluatePosition := fun _ _ => (0, .RUNNING) }

/-- A root candidate already carrying a WIN outcome. -/
def wonNodeC6 : Node := .mk ⟨.Queen, none, (4, 4)⟩ 9 [] 1 .WIN none

theorem pruning_score_order_witness :
    ∃ w2, w2 ∈ (nextDepthList opsC6 (fun _ => false) true [wonNodeC6] () 1).1 ∧
      w2.state = State.WIN ∧
      minimaxLoop opsC6 (fun _ => false) true 1 [wonNodeC6] wonNodeC6 () 0 0
        = w2.move.toBrute true :=
  pruning_score_order_and_root_win.2 Unit opsC6 (fun _ => false) true 0
    [wonNodeC6] wonNodeC6 () 0 0 wonNodeC6 rfl
    (by simp [nextDepthList, nextDepth, wonNodeC6, State.isEnd, State.val, Node.state])
    (by simp [nextDepthList, nextDepth, wonNodeC6, State.isEnd, State.val, Node.state])
    rfl

/-- The spec wording of the generic-blocking condition: the piece at the cell
is the sole occupied neighbor of some opposing piece (that piece has exactly
one occupied neighbor in total, and it is this cell). -/
def specSoleBlocker (s : PlayerSt) (cell : Cell) : Prop :=
  ∃ n ∈ s.hive, (topPieceD s n).isUpper ≠ (topPieceD s cell).isUpper ∧
    neighborsOcc s n = [cell]

instance (s : PlayerSt) (cell : Cell) : Decidable (specSoleBlocker s cell) := by
  unfold specSoleBlocker; infer_instance

/-- A hive of three cells in a row: my Ant at (0,0), rival pieces at (1,0)
and (2,0); the Ant has exactly one occupied neighbor (rival), but no rival
piece has the Ant as its sole occupied neighbor. -/
def stC8 : PlayerSt :=
  { board := fun c =>
      if c = ((0 : Int), (0 : Int)) then ['A']
      else if c = ((1 : Int), (0 : Int)) then ['b']
      else if c = ((2 : Int), (0 : Int)) then ['s'] else [],
    size := 13,
    hive := {((0 : Int), (0 : Int)), ((1 : Int), (0 : Int)), ((2 : Int), (0 : Int))},
    upper := true, myPieces := [], myMove := 6 }

/-- Claim C8 fails on the code: the Ant at (0,0) gets the generic-blocking
override (score 600 = EVAL_TABLE_MY[GENERIC_BLOCKING]) although it is not the
sole occupied neighbor of any opposing piece; the code tests the neighbors of
the scored cell itself, not of the opposing pieces. -/
theorem evaluateCell_blocking_counterexample :
    evaluateCell stC8 (0, 0) true = some (600, State.RUNNING) ∧
    EVAL_TABLE_MY.getD criteriaGenericBlocking 0 = 600 ∧
    ¬ specSoleBlocker stC8 (0, 0) := by
  refine ⟨?_, ?_, ?_⟩ <;> decide

theorem ibrLoop_two_false (s : PlayerSt) (tp : Bool) (n1 n2 : Cell)
    (rest : List Cell) : ibrLoop s tp (n1 :: n2 :: rest) false = false := by
  simp only [ibrLoop]
  split
  · rfl
  · simp only [Bool.false_eq_true, if_false]
    split
    · rfl
    · simp

theorem isBlockingRivalPiece_iff (s : PlayerSt) (cell : Cell) (tp : Bool) :
    isBlockingRivalPiece s cell tp = true ↔
      ∃ n, neighborsOcc s cell = [n] ∧ (topPieceD s n).isUpper ≠ tp := by
  unfold isBlockingRivalPiece
  cases h : neighborsOcc s cell with
  | nil =>
    simp [ibrLoop]
  | cons n1 t =>
    cases t with
    | nil =>
      simp only [ibrLoop]
      by_cases hc : (topPieceD s n1).isUpper = tp
      · simp [hc]
      · simp [hc]
    | cons n2 r =>
      rw [ibrLoop_two_false]
      simp

/-- Claim C8 amended: for a non-Queen, non-Beetle top piece, the per-cell
score equals table[GENERIC_BLOCKING] exactly when the scored cell itself has
exactly one occupied neighbor and that neighbor belongs to the other side;
the returned state is RUNNING. -/
theorem evaluateCell_generic_blocking (s : PlayerSt) (cell : Cell) (tp : Bool)
    (top : Char) (piece : Piece)
    (htop : topPieceIn s cell = some top)
    (hpc : pieceFromChar top = some piece)
    (hq : piece ≠ .Queen) (hb : piece ≠ .Beetle) :
    ((evaluateCell s cell tp).map Prod.fst
        = some ((if top.isUpper == tp then EVAL_TABLE_MY else EVAL_TABLE_RIVAL).getD
            criteriaGenericBlocking 0)
      ↔ ∃ n, neighborsOcc s cell = [n] ∧ (topPieceD s n).isUpper ≠ top.isUpper) ∧
    (evaluateCell s cell tp).map Prod.snd = some State.RUNNING := by
  have hev : evaluateCell s cell tp =
      some ((if piece ≠ .Queen ∧ isBlockingRivalPiece s cell top.isUpper = true then
          (if top.isUpper == tp then EVAL_TABLE_MY else EVAL_TABLE_RIVAL).getD
            criteriaGenericBlocking 0
        else
          (if top.isUpper == tp then EVAL_TABLE_MY else EVAL_TABLE_RIVAL).getD
            criteriaBase 0),
        State.RUNNING) := by
    simp only [evaluateCell, htop, hpc, Option.pure_def, Option.bind_eq_bind,
      Option.some_bind]
    rw [if_neg hb, if_neg hq]
  rw [hev]
  constructor
  · simp only [Option.map_some', Option.some.injEq]
    rw [← isBlockingRivalPiece_iff s cell top.isUpper]
    by_cases hbl : isBlockingRivalPiece s cell top.isUpper = true
    · simp [hbl, hq]
    · simp only [hq, hbl, and_false, ne_eq, not_false_eq_true, and_true, if_false,
        false_and, if_neg, iff_false]
      cases h2 : (top.isUpper == tp) <;> simp [h2] <;> decide
  · simp

/-- A positive instance for the generic-blocking rule: my Ant at (0,0) whose
only occupied neighbor is the rival piece at (1,0). -/
def stC8w : PlayerSt :=
  { board := fun c =>
      if c = ((0 : Int), (0 : Int)) then ['A']
      else if c = ((1 : Int), (0 : Int)) then ['b'] else [],
    size := 13, hive := {((0 : Int), (0 : Int)), ((1 : Int), (0 : Int))},
    upper := true, myPieces := [], myMove := 6 }

theorem evaluateCell_generic_blocking_witness :
    ((evaluateCell stC8w (0, 0) true).map Prod.fst
        = some ((if ('A').isUpper == true then EVAL_TABLE_MY else EVAL_TABLE_RIVAL).getD
            criteriaGenericBlocking 0)
      ↔ ∃ n, neighborsOcc stC8w (0, 0) = [n] ∧
          (topPieceD stC8w n).isUpper ≠ ('A').isUpper) ∧
    (evaluateCell stC8w (0, 0) true).map Prod.snd = some State.RUNNING :=
  evaluateCell_generic_blocking stC8w (0, 0) true 'A' .Ant (by decide) (by decide)
    (by decide) (by decide)

/-- A lone rival piece on the corner cell (0,0) of a size-13 board, as in the
spec scenario for the opponent first placement. -/
def stC9 : PlayerSt :=
  { board := fun c => if c = ((0 : Int), (0 : Int)) then ['q'] else [],
    size := 13, hive := {((0 : Int), (0 : Int))}, upper := true,
    myPieces := [(Piece.Spider, 1)], myMove := 0 }

/-- Claim C9 fails on the code: with the hive at the corner cell (0,0), the
cells around the hive are only the two in-board neighbors (1,0) and (0,1),
not all six neighbors of (0,0); the other four are outside the board. -/
theorem cellsAroundHive_corner_counterexample :
    cellsAroundHive stC9 = {((1 : Int), (0 : Int)), ((0 : Int), (1 : Int))} ∧
    cellsAroundHive stC9
      ≠ (neighboringCellsUnchecked ((0 : Int), (0 : Int))).toFinset ∧
    (neighboringCellsUnchecked ((0 : Int), (0 : Int))).toFinset.card = 6 := by
  refine ⟨?_, ?_, ?_⟩ <;> decide

/-- Claim C9 amended: on any board of size at least 2 whose only occupied
cell is the corner (0,0), the legal placement cells computed for the opponent
(the first-placement exemption, with no own-pieces constraint) are exactly
the two in-board neighbors (1,0) and (0,1). -/
theorem cellsAroundHive_single_corner (s : PlayerSt)
    (hsize : 2 ≤ s.size)
    (hhive : s.hive = {((0 : Int), (0 : Int))})
    (hboard : ∀ c, c ≠ ((0 : Int), (0 : Int)) → s.board c = []) :
    cellsAroundHive s = {((1 : Int), (0 : Int)), ((0 : Int), (1 : Int))} := by
  have hf0 : ((0 : Int)).fdiv 2 = 0 := by decide
  have hf1 : ((1 : Int)).fdiv 2 = 0 := by decide
  have hfm1 : ((-1 : Int)).fdiv 2 = -1 := by decide
  have h10 : inBoard s (1, 0) = true := by
    simp only [inBoard, decide_eq_true_eq, hf0]
    omega
  have h01 : inBoard s (0, 1) = true := by
    simp only [inBoard, decide_eq_true_eq, hf1]
    omega
  have hm11 : inBoard s (-1, 1) = false := by
    simp only [inBoard, decide_eq_false_iff_not, hf1]
    omega
  have hm10 : inBoard s (-1, 0) = false := by
    simp only [inBoard, decide_eq_false_iff_not, hf0]
    omega
  have h0m1 : inBoard s (0, -1) = false := by
    simp only [inBoard, decide_eq_false_iff_not, hfm1]
    omega
  have h1m1 : inBoard s (1, -1) = false := by
    simp only [inBoard, decide_eq_false_iff_not, hfm1]
    omega
  have hunch : neighboringCellsUnchecked ((0 : Int), (0 : Int))
      = [(1, 0), (0, 1), (-1, 1), (-1, 0), (0, -1), (1, -1)] := by decide
  have hnc : neighboringCells s ((0 : Int), (0 : Int)) = [(1, 0), (0, 1)] := by
    rw [neighboringCells, hunch]
    simp [List.filter, h10, h01, hm11, hm10, h0m1, h1m1]
  have he10 : isEmptyCell s (1, 0) = true := by
    simp [isEmptyCell, hboard (1, 0) (by decide)]
  have he01 : isEmptyCell s (0, 1) = true := by
    simp [isEmptyCell, hboard (0, 1) (by decide)]
  have hemp : emptyNeighboringCells s ((0 : Int), (0 : Int)) = [(1, 0), (0, 1)] := by
    rw [emptyNeighboringCells, hnc]
    simp [List.filter, he10, he01]
  rw [cellsAroundHive, hhive, Finset.singleton_biUnion, hemp]
  decide

theorem cellsAroundHive_single_corner_witness :
    cellsAroundHive stC9 = {((1 : Int), (0 : Int)), ((0 : Int), (1 : Int))} :=
  cellsAroundHive_single_corner stC9 (by decide) (by decide)
    (by
      intro c hc
      show (if c = ((0 : Int), (0 : Int)) then ['q'] else []) = []
      rw [if_neg hc])

/-- Claim C10: before turn index 4 every generated legal move is a placement
(start = none); relocation moves only enter the set from turn 4 on. -/
theorem validMoves_placements_only (s : PlayerSt) (h : s.myMove < 4) :
    ∀ m ∈ validMoves s, m.start = none := by
  intro m hm
  unfold validMoves at hm
  split at hm
  · obtain ⟨c, _, rfl⟩ := Finset.mem_image.mp hm
    rfl
  · rw [if_neg (by omega)] at hm
    obtain ⟨c, _, hm2⟩ := Finset.mem_biUnion.mp hm
    rw [List.mem_toFinset] at hm2
    obtain ⟨p, _, rfl⟩ := List.mem_map.mp hm2
    rfl

/-- A concrete turn-1 state: my queen on (0,0) and spiders in reserve. -/
def stC10 : PlayerSt :=
  { board := fun c => if c = ((0 : Int), (0 : Int)) then ['Q'] else [],
    size := 13, hive := {((0 : Int), (0 : Int))}, upper := true,
    myPieces := [(Piece.Spider, 2)], myMove := 1 }

theorem validMoves_placements_only_witness :
    stC10.myMove < 4 ∧ (Move.mk .Spider none (1, 0)) ∈ validMoves stC10 ∧
      (Move.mk .Spider none (1, 0)).start = none :=
  ⟨by decide, by decide,
    validMoves_placements_only stC10 (by decide) (Move.mk .Spider none (1, 0))
      (by decide)⟩

/-- A state with a single piece at (3,1), flanking the slide from (2,2) to
(3,2) on one side. -/
def stC3 : PlayerSt :=
  { board := fun c => if c = ((3 : Int), (1 : Int)) then ['a'] else [],
    size := 13, hive := {((3 : Int), (1 : Int))}, upper := true,
    myPieces := [], myMove := 5 }

theorem canMoveTo_spec_witness :
    adjacent (2, 2) (3, 2) ∧
    ((canMoveTo stC3 (2, 2) (3, 2) false = true ↔ specFreeSlide stC3 (2, 2) (3, 2)) ∧
      (canMoveTo stC3 (2, 2) (3, 2) true = true ↔ specCrawlOver stC3 (2, 2) (3, 2))) :=
  ⟨by decide, canMoveTo_spec stC3 (2, 2) (3, 2) (by decide)⟩

theorem mem_directions_iff (d : Cell) : d ∈ DIRECTIONS ↔ ∃ i : Fin 6, dirAt i = d := by
  constructor
  · intro h
    simp only [DIRECTIONS, List.mem_cons, List.not_mem_nil, or_false] at h
    rcases h with rfl | rfl | rfl | rfl | rfl | rfl
    · exact ⟨0, by decide⟩
    · exact ⟨1, by decide⟩
    · exact ⟨2, by decide⟩
    · exact ⟨3, by decide⟩
    · exact ⟨4, by decide⟩
    · exact ⟨5, by decide⟩
  · rintro ⟨i, rfl⟩
    fin_cases i <;> decide

theorem cadd_csub (c y : Cell) : cadd c (csub y c) = y := by
  obtain ⟨a, b⟩ := c
  obtain ⟨u, v⟩ := y
  simp only [cadd, csub, Prod.mk.injEq]
  omega

theorem adjacent_to_dir (c y : Cell) (h : adjacent c y) :
    ∃ i : Fin 6, y = cadd c (dirAt i) := by
  obtain ⟨i, hi⟩ := (mem_directions_iff _).mp h
  exact ⟨i, by rw [hi, cadd_csub]⟩

theorem adjacent_symm (a b : Cell) (h : adjacent a b) : adjacent b a := by
  obtain ⟨x, y⟩ := a
  obtain ⟨u, v⟩ := b
  simp only [adjacent, csub, DIRECTIONS, List.mem_cons, List.not_mem_nil, or_false,
    Prod.mk.injEq] at *
  omega

theorem not_adjacent_self (c : Cell) : ¬ adjacent c c := by
  obtain ⟨x, y⟩ := c
  simp only [adjacent, csub, DIRECTIONS, List.mem_cons, List.not_mem_nil, or_false,
    Prod.mk.injEq]
  omega

theorem dirAt_eq (i : Fin 6) : dirAt i =
    if i.1 = 0 then (1, 0) else if i.1 = 1 then (0, 1) else if i.1 = 2 then (-1, 1)
    else if i.1 = 3 then (-1, 0) else if i.1 = 4 then (0, -1) else (1, -1) := by
  obtain ⟨v, hv⟩ := i
  interval_cases v <;> rfl

theorem cadd_dirAt_ne (c : Cell) (i : Fin 6) : cadd c (dirAt i) ≠ c := by
  obtain ⟨x, y⟩ := c
  rw [dirAt_eq]
  obtain ⟨v, hv⟩ := i
  interval_cases v <;> simp [cadd, Prod.ext_iff]

theorem idxNear_adjacent (c : Cell) (i j : Fin 6) (h : idxNear i j = true) :
    adjacent (cadd c (dirAt i)) (cadd c (dirAt j)) := by
  obtain ⟨x, y⟩ := c
  rw [dirAt_eq i, dirAt_eq j]
  obtain ⟨a, ha⟩ := i
  obtain ⟨b, hb⟩ := j
  have hnear : (b = (a + 1) % 6 ∨ a = (b + 1) % 6) := by
    simp only [idxNear, Bool.or_eq_true, beq_iff_eq] at h
    rcases h with h | h
    · left
      have : (⟨b, hb⟩ : Fin 6).1 = ((⟨a, ha⟩ : Fin 6) + 1).1 := by rw [h]
      simpa [Fin.add_def] using this
    · right
      have : (⟨a, ha⟩ : Fin 6).1 = ((⟨b, hb⟩ : Fin 6) + 1).1 := by rw [h]
      simpa [Fin.add_def] using this
  simp only [adjacent, csub, cadd, DIRECTIONS, List.mem_cons, List.not_mem_nil,
    or_false, Prod.mk.injEq]
  interval_cases a <;> interval_cases b <;> simp_all

/-- Over all 64 occupancy patterns of the six neighbor slots: when the run
count of the `moving_breaks_hive` loop is exactly one, every occupied slot
reaches every occupied slot through chains of consecutive occupied slots. -/
theorem groups_one_arc : ∀ occ : Fin 6 → Bool, groupsOf occ = 1 →
    ∀ i j : Fin 6, occ i = true → occ j = true → j ∈ idxReach occ i := by decide

theorem idxReach_expand_sound (S : Finset Cell) (c : Cell) (i : Fin 6)
    (hi : occAround S c i = true) :
    ∀ n : Nat, ∀ j ∈ (idxReachExpand (occAround S c))^[n] {i},
      occAround S c j = true ∧
      reachIn (S.erase c) (cadd c (dirAt i)) (cadd c (dirAt j)) := by
  intro n
  induction n with
  | zero =>
    intro j hj
    simp only [Function.iterate_zero, id, Finset.mem_singleton] at hj
    subst hj
    exact ⟨hi, Relation.ReflTransGen.refl⟩
  | succ n ih =>
    intro j hj
    rw [Function.iterate_succ_apply'] at hj
    unfold idxReachExpand at hj
    rw [Finset.mem_union] at hj
    rcases hj with hj | hj
    · exact ih j hj
    · rw [Finset.mem_filter] at hj
      obtain ⟨-, hocc, i2, hi2mem, hnear⟩ := hj
      obtain ⟨hocc2, hreach2⟩ := ih i2 hi2mem
      refine ⟨hocc, hreach2.tail ?_⟩
      refine ⟨?_, idxNear_adjacent c i2 j hnear⟩
      rw [Finset.mem_erase]
      exact ⟨cadd_dirAt_ne c j, by simpa [occAround] using hocc⟩

theorem reachIn_mem (S : Finset Cell) (x y : Cell) (h : reachIn S x y) :
    y = x ∨ y ∈ S := by
  induction h with
  | refl => exact Or.inl rfl
  | tail _ step _ => exact Or.inr step.1

/-- Reroute a path of the full hive around the lifted cell c: a path from x
ending away from c stays available in the hive minus c, and a path ending at
c provides an occupied neighbor slot of c reached in the hive minus c. -/
theorem reroute (S : Finset Cell) (c : Cell)
    (harc : ∀ i j : Fin 6, occAround S c i = true → occAround S c j = true →
      reachIn (S.erase c) (cadd c (dirAt i)) (cadd c (dirAt j)))
    (x : Cell) (hx : x ∈ S) (hxc : x ≠ c) (y : Cell) (h : reachIn S x y) :
    (y ≠ c → reachIn (S.erase c) x y) ∧
    (y = c → ∃ i : Fin 6, occAround S c i = true ∧
      reachIn (S.erase c) x (cadd c (dirAt i))) := by
  induction h with
  | refl =>
    exact ⟨fun _ => Relation.ReflTransGen.refl, fun hyc => absurd hyc hxc⟩
  | @tail m y p step ih =>
    obtain ⟨hyS, hadj⟩ := step
    by_cases hmc : m = c
    · subst hmc
      constructor
      · intro hyc
        obtain ⟨i, hocci, hreachi⟩ := ih.2 rfl
        obtain ⟨j, rfl⟩ := adjacent_to_dir m y hadj
        have hoccj : occAround S m j = true := by
          simpa [occAround] using hyS
        exact Relation.ReflTransGen.trans hreachi (harc i j hocci hoccj)
      · intro hyc
        exact absurd (hyc ▸ hadj) (not_adjacent_self m)
    · have hm : m ∈ S := by
        rcases reachIn_mem S x m p with rfl | hm
        · exact hx
        · exact hm
      have hreachm : reachIn (S.erase c) x m := ih.1 hmc
      constructor
      · intro hyc
        exact hreachm.tail ⟨Finset.mem_erase.mpr ⟨hyc, hyS⟩, hadj⟩
      · intro hyc
        subst hyc
        obtain ⟨i, hmi⟩ := adjacent_to_dir y m (adjacent_symm m y hadj)
        refine ⟨i, ?_, ?_⟩
        · simp [occAround, ← hmi, hm]
        · rw [← hmi]
          exact hreachm

/-- Claim C2: for an occupied cell whose stack holds exactly one piece, in a
connected hive, when the circular neighbor-run scan of `moving_breaks_hive`
counts exactly one contiguous occupied run, the hive with that cell removed
is still connected, so the cheap heuristic never reports connected where the
flood-fill fallback would report disconnected. -/
theorem groups_one_keeps_hive_connected (s : PlayerSt) (c : Cell)
    (_hstack : (s.board c).length = 1)
    (_hinv : ∀ z, z ∈ s.hive ↔ s.board z ≠ [])
    (_hc : c ∈ s.hive)
    (hconn : hiveConnected s.hive)
    (hgroups : groupsAround s.hive c = 1) :
    hiveConnected (s.hive.erase c) := by
  have harc : ∀ i j : Fin 6, occAround s.hive c i = true →
      occAround s.hive c j = true →
      reachIn (s.hive.erase c) (cadd c (dirAt i)) (cadd c (dirAt j)) := by
    intro i j hi hj
    have hreach := groups_one_arc (occAround s.hive c) hgroups i j hi hj
    exact (idxReach_expand_sound s.hive c i hi 6 j hreach).2
  intro x hx y hy
  obtain ⟨hxc, hxS⟩ := Finset.mem_erase.mp hx
  obtain ⟨hyc, hyS⟩ := Finset.mem_erase.mp hy
  exact (reroute s.hive c harc x hxS hxc y (hconn x hxS y hyS)).1 hyc

/-- A two-cell hive: queen at (5,5) and a rival ant at (6,5). -/
def stC2 : PlayerSt :=
  { board := fun c => if c = ((5 : Int), (5 : Int)) then ['Q']
      else if c = ((6 : Int), (5 : Int)) then ['a'] else [],
    size := 13, hive := {((5 : Int), (5 : Int)), ((6 : Int), (5 : Int))},
    upper := true, myPieces := [], myMove := 6 }

theorem groups_one_keeps_hive_connected_witness :
    hiveConnected (stC2.hive.erase ((5 : Int), (5 : Int))) :=
  groups_one_keeps_hive_connected stC2 (5, 5) (by decide)
    (by
      intro z
      by_cases h5 : z = ((5 : Int), (5 : Int))
      · simp [stC2, h5]
      · by_cases h6 : z = ((6 : Int), (5 : Int))
        · simp [stC2, h5, h6]
        · simp [stC2, h5, h6])
    (by decide)
    (by
      intro x hx y hy
      fin_cases hx <;> fin_cases hy
      · exact Relation.ReflTransGen.refl
      · exact Relation.ReflTransGen.single ⟨by decide, by decide⟩
      · exact Relation.ReflTransGen.single ⟨by decide, by decide⟩
      · exact Relation.ReflTransGen.refl)
    (by decide)
